import Mathlib

/-!
# Verification of the cancan authorization engine

A shallow embedding of `src/index.js` (the cancan ability registry and
decision engine) together with proofs about its behaviour.

Modelling choices:
* JavaScript values are modelled by the inductive type `Val`.  Objects carry
  a reference identifier (strict equality `===` on objects is reference
  equality), an association list of own properties, and an optional backing
  map for a `get` accessor method (`typeof obj.get === 'function'`).
* Asynchronous computations that may reject are modelled by `Except Val`:
  a rejected promise carries the thrown JavaScript value.  `Promise.all` is
  modelled deterministically: the rejection of the earliest (in array order)
  rejecting element is propagated.
* Condition predicates follow the declared contract
  `(performer, target, options) -> boolean | Promise<boolean>`, so they are
  functions `Val → Val → Val → Except Val Bool`; the `!!` coercion applied
  by `filterAsync` is the identity on booleans.
* `arrify` (external dependency) maps `null`/`undefined` to `[]`, keeps an
  array as is and wraps any other value in a one-element array; the call
  shapes are captured by the inductive type `Arg`.
* The `condition` parameter of `allow` is classified by `CondArg`:
  `undefined`, a function, a plain object (what `is-plain-obj` accepts, as an
  association list with unique keys), or any other value together with its
  `typeof` name (the case that throws a `TypeError`).
* A method that can throw before mutating `this` is modelled as returning a
  pair (thrown message, resulting state).
-/

/-- JavaScript values (the fragment the engine manipulates). -/
inductive Val where
  | undef : Val
  | nullv : Val
  | boolv (b : Bool) : Val
  | numv (n : Int) : Val
  | strv (s : String) : Val
  | objv (id : Nat) (props : List (String × Val)) (getAttrs : Option (List (String × Val))) : Val

/-- JavaScript strict equality `===`: primitives by value, objects by reference. -/
def jsEq : Val → Val → Bool
  | Val.undef, Val.undef => true
  | Val.nullv, Val.nullv => true
  | Val.boolv a, Val.boolv b => a == b
  | Val.numv a, Val.numv b => a == b
  | Val.strv a, Val.strv b => a == b
  | Val.objv i _ _, Val.objv j _ _ => i == j
  | _, _ => false

/-- JavaScript truthiness of a value. -/
def truthy : Val → Bool
  | Val.undef => false
  | Val.nullv => false
  | Val.boolv b => b
  | Val.numv n => n != 0
  | Val.strv s => s ≠ ""
  | Val.objv _ _ _ => true

/-- The object literal `{}` (a fresh empty object with no `get` method). -/
def emptyObj : Val := Val.objv 0 [] none

/-- First-match association-list lookup; a missing key reads as `undefined`. -/
def lookupProp : List (String × Val) → String → Val
  | [], _ => Val.undef
  | (k, v) :: rest, key => if k == key then v else lookupProp rest key

/-- `get(obj, key)` from the source: use the object's `get` accessor method
when it exposes one, fall back to direct property lookup otherwise. -/
def get (obj : Val) (key : String) : Val :=
  match obj with
  | Val.objv _ props getAttrs =>
    match getAttrs with
    | some m => lookupProp m key
    | none => lookupProp props key
  | _ => Val.undef

/-- `isPartiallyEqual(target, obj)`: every key of the attribute map reads on
the target as a value strictly equal to the declared one. -/
def isPartiallyEqual (target : Val) (obj : List (String × Val)) : Bool :=
  obj.all (fun kv => jsEq (get target kv.1) kv.2)

/-- `getConditionFn(condition)`: desugar an attribute map into a predicate on
(performer, target); the options argument is ignored. -/
def getConditionFn (condition : List (String × Val)) : Val → Val → Val → Except Val Bool :=
  fun _ target _ => Except.ok (isPartiallyEqual target condition)

/-- `defaultCreateError`: `() => new Error('Authorization error')`, ignoring
all arguments. -/
def defaultCreateError : Val → Val → Val → Val → Val :=
  fun _ _ _ _ => Val.objv 0 [("message", Val.strv "Authorization error")] none

/-- A declared ability: one entry of `this.abilities`. -/
structure Rule where
  model : Val
  action : Val
  target : Val
  condition : Option (Val → Val → Val → Except Val Bool)

/-- Engine state: the ability registry plus the injected collaborators. -/
structure CanCan where
  abilities : List Rule
  instanceOf : Val → Val → Bool
  createError : Val → Val → Val → Val → Val

/-- Call shape of the `actions` / `targets` arguments of `allow`. -/
inductive Arg where
  | undefA : Arg
  | nullA : Arg
  | single (v : Val) : Arg
  | list (l : List Val) : Arg

/-- `arrify`: `null`/`undefined` become `[]`, an array is kept as is, any
other value becomes a one-element array. -/
def arrify : Arg → List Val
  | Arg.undefA => []
  | Arg.nullA => []
  | Arg.single v => [v]
  | Arg.list l => l

/-- Call shape of the `condition` argument of `allow`, classified the way the
source classifies it (`typeof`/`is-plain-obj`): `undefined`, a function, a
plain object, or any other value together with its `typeof` name. -/
inductive CondArg where
  | undef : CondArg
  | fn (f : Val → Val → Val → Except Val Bool) : CondArg
  | obj (m : List (String × Val)) : CondArg
  | other (typeName : String) : CondArg

/-- Normalization performed by `allow`: a plain object is desugared through
`getConditionFn`; `undefined` means no condition. -/
def normalizeCond : CondArg → Option (Val → Val → Val → Except Val Bool)
  | CondArg.undef => none
  | CondArg.fn f => some f
  | CondArg.obj m => some (getConditionFn m)
  | CondArg.other _ => none

/-- Message of the `TypeError` thrown by `allow` on an invalid condition. -/
def condErrMsg (typeName : String) : String :=
  "Expected condition to be object or function, got " ++ typeName

/-- The rules pushed by a successful `allow` call: one per (action, target)
pair of the cartesian product, in nested-loop order, all sharing the one
normalized condition. -/
def allowRules (model : Val) (actions targets : Arg) (c : CondArg) : List Rule :=
  (arrify actions).flatMap (fun action =>
    (arrify targets).map (fun target =>
      { model := model, action := action, target := target,
        condition := normalizeCond c }))

/-- `allow(model, actions, targets, condition)`: validate the condition, then
push one rule per (action, target) pair of the cartesian product.  The first
component is the thrown error message, if any; the throw happens before any
rule is pushed, so on failure the state is returned unchanged. -/
def allow (st : CanCan) (model : Val) (actions targets : Arg) (condition : CondArg) :
    Option String × CanCan :=
  match condition with
  | CondArg.other tn => (some (condErrMsg tn), st)
  | c => (none, { st with abilities := st.abilities ++ allowRules model actions targets c })

/-- `mapAsync(array, fn)` = `Promise.all(array.map(fn))`, modelled
deterministically: the first (in array order) rejection is propagated. -/
def mapAsync : List Rule → (Rule → Except Val Bool) → Except Val (List Bool)
  | [], _ => Except.ok []
  | r :: rs, f =>
    match f r with
    | Except.error e => Except.error e
    | Except.ok v => (mapAsync rs f).map (fun vs => v :: vs)

/-- `filterAsync(array, fn)`: map, then keep the truthy mapped values
(the source filters `mappedArray` by `!!mappedArray[i]`). -/
def filterAsync (l : List Rule) (f : Rule → Except Val Bool) : Except Val (List Bool) :=
  (mapAsync l f).map (List.filter (fun v => v))

/-- The condition check `can` runs per surviving rule: evaluate the condition
when there is one, otherwise resolve `true`. -/
def condEval (r : Rule) (performer target opts : Val) : Except Val Bool :=
  match r.condition with
  | some f => f performer target opts
  | none => Except.ok true

/-- The three registry filters of `can`: model match (injected `instanceOf`),
target match (`'all'` sentinel, strict equality, or `instanceOf`), and action
match (`'manage'` sentinel or strict equality). -/
def matchedOf (inst : Val → Val → Bool) (performer action target : Val)
    (l : List Rule) : List Rule :=
  ((l.filter (fun a => inst performer a.model)).filter
      (fun a => jsEq a.target (Val.strv "all") || jsEq target a.target ||
        inst target a.target)).filter
    (fun a => jsEq a.action (Val.strv "manage") || jsEq action a.action)

/-- The body of `can` once the options value passed to conditions is fixed:
filter the registry, evaluate the surviving conditions, and succeed iff at
least one survived with a truthy condition result. -/
def canList (inst : Val → Val → Bool) (performer action target opts : Val)
    (l : List Rule) : Except Val Bool :=
  (filterAsync (matchedOf inst performer action target l)
      (fun r => condEval r performer target opts)).map
    (fun kept => decide (0 < kept.length))

/-- The `options || {}` defaulting performed at each condition call. -/
def defaultOpts (options : Val) : Val :=
  if truthy options then options else emptyObj

/-- The surviving rules of a query against an engine state. -/
def matchedRules (st : CanCan) (performer action target : Val) : List Rule :=
  matchedOf st.instanceOf performer action target st.abilities

/-- `can(performer, action, target, options)`. -/
def can (st : CanCan) (performer action target options : Val) : Except Val Bool :=
  canList st.instanceOf performer action target (defaultOpts options) st.abilities

/-- `cannot(...)` = `!(await can(...))`. -/
def cannot (st : CanCan) (performer action target options : Val) : Except Val Bool :=
  (can st performer action target options).map (fun b => !b)

/-- `authorize(...)`: throw `createError(...arguments)` when `cannot` resolves
true; propagate a rejection of `cannot`; otherwise resolve with no value. -/
def authorize (st : CanCan) (performer action target options : Val) : Except Val Unit :=
  match cannot st performer action target options with
  | Except.error e => Except.error e
  | Except.ok true => Except.error (st.createError performer action target options)
  | Except.ok false => Except.ok ()

/-- The value of a successful evaluation, reading a rejection as `false`
(only ever used under a hypothesis excluding the rejected case). -/
def okD : Except Val Bool → Bool
  | Except.ok b => b
  | Except.error _ => false

/-- The function condition an attribute map is claimed to be equivalent to:
ignore the performer and the options, and require every declared key to read
on the target as a value strictly equal to the declared one. -/
def specAttrCond (attrs : List (String × Val)) : Val → Val → Val → Except Val Bool :=
  fun _ target _ => Except.ok (attrs.all (fun kv => jsEq (get target kv.1) kv.2))

/-- Two rules that agree on the matched fields and evaluate their conditions
identically; `can` cannot distinguish registries related pointwise by this. -/
def RuleEquiv (r₁ r₂ : Rule) : Prop :=
  r₁.model = r₂.model ∧ r₁.action = r₂.action ∧ r₁.target = r₂.target ∧
    ∀ p t opts, condEval r₁ p t opts = condEval r₂ p t opts

/-- A type-membership predicate accepting everything (for concrete states). -/
def instAll : Val → Val → Bool := fun _ _ => true

/-- A rule whose condition always rejects. -/
def ruleBoom : Rule :=
  { model := Val.numv 0, action := Val.strv "read", target := Val.strv "all",
    condition := some (fun _ _ _ => Except.error (Val.strv "boom")) }

/-- An unconditional rule for the action `"read"`. -/
def ruleRead : Rule :=
  { model := Val.numv 0, action := Val.strv "read", target := Val.strv "all",
    condition := none }

/-- A rule for the action `"write"` whose condition always rejects. -/
def ruleWriteBoom : Rule :=
  { model := Val.numv 0, action := Val.strv "write", target := Val.strv "all",
    condition := some (fun _ _ _ => Except.error (Val.strv "boom")) }

/-- A registry holding a rejecting rule followed by an unconditional one. -/
def stBoom : CanCan :=
  { abilities := [ruleBoom, ruleRead], instanceOf := instAll,
    createError := defaultCreateError }

/-- A registry holding a single unconditional rule. -/
def stOne : CanCan :=
  { abilities := [ruleRead], instanceOf := instAll, createError := defaultCreateError }

/-- The empty registry. -/
def stEmpty : CanCan :=
  { abilities := [], instanceOf := instAll, createError := defaultCreateError }

/-- An unconditional read rule declared before a write rule whose condition
always rejects. -/
def stRB : CanCan :=
  { abilities := [ruleRead, ruleWriteBoom], instanceOf := instAll,
    createError := defaultCreateError }

/-- The same two rules in the opposite order. -/
def stBR : CanCan :=
  { abilities := [ruleWriteBoom, ruleRead], instanceOf := instAll,
    createError := defaultCreateError }

lemma length_allowRules (m : Val) (acts tgts : Arg) (c : CondArg) :
    (allowRules m acts tgts c).length = (arrify acts).length * (arrify tgts).length := by
  unfold allowRules
  induction arrify acts with
  | nil => simp
  | cons a A ih => simp [ih, Nat.succ_mul, Nat.add_comm]

lemma getElem_allowRules (m : Val) (acts tgts : Arg) (c : CondArg) :
    ∀ (i j : Nat) (hi : i < (arrify acts).length) (hj : j < (arrify tgts).length),
      (allowRules m acts tgts c)[i * (arrify tgts).length + j]? =
        some { model := m, action := (arrify acts)[i], target := (arrify tgts)[j],
               condition := normalizeCond c } := by
  unfold allowRules
  induction arrify acts with
  | nil => intro i j hi hj; simp at hi
  | cons a A ih =>
    intro i j hi hj
    cases i with
    | zero =>
      have hlen : j < ((arrify tgts).map (fun target =>
          { model := m, action := a, target := target,
            condition := normalizeCond c : Rule })).length := by
        simpa using hj
      simp only [Nat.zero_mul, Nat.zero_add, List.flatMap_cons]
      rw [List.getElem?_append_left hlen]
      simp [List.getElem?_map, List.getElem?_eq_getElem hj]
    | succ i' =>
      have hi' : i' < A.length := by simpa using hi
      simp only [List.flatMap_cons]
      have hidx : (i' + 1) * (arrify tgts).length + j =
          ((arrify tgts).map (fun target =>
            { model := m, action := a, target := target,
              condition := normalizeCond c : Rule })).length +
            (i' * (arrify tgts).length + j) := by
        simp [Nat.succ_mul]; ring
      rw [hidx, List.getElem?_append_right (Nat.le_add_right _ _),
        Nat.add_sub_cancel_left, ih i' j hi' hj]
      simp

/-- C2: a successful `allow` call with N normalized actions and M normalized
targets appends exactly N×M rules, one per (action, target) pair of the
cartesian product, in order, all sharing the same normalized condition; a
bare scalar is normalized to a one-element sequence, and duplicate pairs
yield duplicate rules (the indexing formula performs no deduplication). -/
theorem allow_cartesian_product (st : CanCan) (m : Val) (acts tgts : Arg)
    (cond : CondArg) (h : (allow st m acts tgts cond).1 = none) :
    ((allow st m acts tgts cond).2.abilities.length
        = st.abilities.length + (arrify acts).length * (arrify tgts).length)
    ∧ (∀ (i j : Nat) (hi : i < (arrify acts).length) (hj : j < (arrify tgts).length),
        (allow st m acts tgts cond).2.abilities[st.abilities.length +
            i * (arrify tgts).length + j]? =
          some { model := m, action := (arrify acts)[i], target := (arrify tgts)[j],
                 condition := normalizeCond cond })
    ∧ (∀ v : Val, arrify (Arg.single v) = [v]) := by
  have habs : (allow st m acts tgts cond).2.abilities =
      st.abilities ++ allowRules m acts tgts cond := by
    cases cond <;> simp_all [allow]
  refine ⟨?_, ?_, fun v => rfl⟩
  · rw [habs, List.length_append, length_allowRules]
  · intro i j hi hj
    rw [habs, Nat.add_assoc,
      List.getElem?_append_right (Nat.le_add_right _ _),
      Nat.add_sub_cancel_left, getElem_allowRules m acts tgts cond i j hi hj]

/-- Witness for C2 at a concrete call: two actions and two targets produce
four rules in cartesian order. -/
theorem allow_cartesian_product_witness :
    ((allow stEmpty (Val.numv 0) (Arg.list [Val.strv "read", Val.strv "write"])
          (Arg.list [Val.strv "all", Val.numv 7]) CondArg.undef).2.abilities.length
        = 0 + 2 * 2)
    ∧ ((allow stEmpty (Val.numv 0) (Arg.list [Val.strv "read", Val.strv "write"])
          (Arg.list [Val.strv "all", Val.numv 7]) CondArg.undef).2.abilities[0 +
            1 * 2 + 1]? =
        some { model := Val.numv 0, action := Val.strv "write", target := Val.numv 7,
               condition := normalizeCond CondArg.undef }) := by
  have h := allow_cartesian_product stEmpty (Val.numv 0)
    (Arg.list [Val.strv "read", Val.strv "write"])
    (Arg.list [Val.strv "all", Val.numv 7]) CondArg.undef rfl
  exact ⟨h.1, h.2.1 1 1 (by decide) (by decide)⟩

/-- C3: `allow` throws exactly when the condition argument is present and is
neither a function nor a plain attribute map; the thrown message carries the
offending value's `typeof` name; declaring `undefined` never throws; and on a
throw the registry is returned unchanged. -/
theorem allow_condition_validation (st : CanCan) (m : Val) (acts tgts : Arg)
    (cond : CondArg) :
    (∀ tn, cond = CondArg.other tn →
      allow st m acts tgts cond = (some (condErrMsg tn), st))
    ∧ (cond = CondArg.undef → (allow st m acts tgts cond).1 = none)
    ∧ ((allow st m acts tgts cond).1 ≠ none →
        ∃ tn, cond = CondArg.other tn ∧
          (allow st m acts tgts cond).1 = some (condErrMsg tn)) := by
  refine ⟨?_, ?_, ?_⟩
  · rintro tn rfl; rfl
  · rintro rfl; rfl
  · intro hne
    cases cond with
    | other tn => exact ⟨tn, rfl, rfl⟩
    | undef => exact absurd rfl hne
    | fn f => exact absurd rfl hne
    | obj mm => exact absurd rfl hne

/-- Witness for C3 at concrete calls: a string condition throws with the
message naming `string`, and `undefined` does not throw. -/
theorem allow_condition_validation_witness :
    allow stEmpty (Val.numv 0) (Arg.single (Val.strv "read"))
        (Arg.single (Val.strv "all")) (CondArg.other "string")
      = (some (condErrMsg "string"), stEmpty)
    ∧ (allow stEmpty (Val.numv 0) (Arg.single (Val.strv "read"))
        (Arg.single (Val.strv "all")) CondArg.undef).1 = none := by
  exact ⟨(allow_condition_validation stEmpty (Val.numv 0) (Arg.single (Val.strv "read"))
      (Arg.single (Val.strv "all")) (CondArg.other "string")).1 "string" rfl,
    (allow_condition_validation stEmpty (Val.numv 0) (Arg.single (Val.strv "read"))
      (Arg.single (Val.strv "all")) CondArg.undef).2.1 rfl⟩

lemma okD_eq_true (x : Except Val Bool) : okD x = true ↔ x = Except.ok true := by
  cases x <;> simp [okD]

lemma condEval_ok_true (r : Rule) (p t opts : Val) :
    condEval r p t opts = Except.ok true ↔
      (r.condition = none ∨ ∃ f, r.condition = some f ∧ f p t opts = Except.ok true) := by
  cases hc : r.condition with
  | none => simp [condEval, hc]
  | some f => simp [condEval, hc]

lemma mapAsync_ok (f : Rule → Except Val Bool) (l : List Rule)
    (h : ∀ r ∈ l, ∃ b, f r = Except.ok b) :
    mapAsync l f = Except.ok (l.map (fun r => okD (f r))) := by
  induction l with
  | nil => rfl
  | cons r rs ih =>
    obtain ⟨b, hb⟩ := h r (List.mem_cons_self r rs)
    simp [mapAsync, hb, okD, ih (fun x hx => h x (List.mem_cons_of_mem r hx)), Except.map]

lemma mapAsync_error (f : Rule → Except Val Bool) (l : List Rule)
    (h : ∃ r ∈ l, ∃ e, f r = Except.error e) :
    ∃ e, mapAsync l f = Except.error e ∧ ∃ r ∈ l, f r = Except.error e := by
  induction l with
  | nil => simp at h
  | cons r rs ih =>
    cases hfr : f r with
    | error e => exact ⟨e, by simp [mapAsync, hfr], r, List.mem_cons_self r rs, hfr⟩
    | ok b =>
      have hrs : ∃ r' ∈ rs, ∃ e, f r' = Except.error e := by
        obtain ⟨r', hr', e', he'⟩ := h
        rcases List.mem_cons.mp hr' with rfl | hmem
        · rw [hfr] at he'; cases he'
        · exact ⟨r', hmem, e', he'⟩
      obtain ⟨e, he, r', hr', hfr'⟩ := ih hrs
      exact ⟨e, by simp [mapAsync, hfr, he, Except.map], r',
        List.mem_cons_of_mem r hr', hfr'⟩

lemma filter_map_length_pos (g : Rule → Bool) (l : List Rule) :
    (0 < ((l.map g).filter (fun v => v)).length) ↔ ∃ r ∈ l, g r = true := by
  induction l with
  | nil => simp
  | cons r rs ih => cases hg : g r <;> simp [List.filter_cons, hg, ih]

lemma canList_ok (inst : Val → Val → Bool) (p a t opts : Val) (l : List Rule)
    (h : ∀ r ∈ matchedOf inst p a t l, ∃ b, condEval r p t opts = Except.ok b) :
    canList inst p a t opts l =
      Except.ok (decide (∃ r ∈ matchedOf inst p a t l,
        okD (condEval r p t opts) = true)) := by
  unfold canList filterAsync
  rw [mapAsync_ok _ _ h]
  simp only [Except.map]
  exact congrArg Except.ok (decide_eq_decide.mpr (filter_map_length_pos _ _))

lemma mem_matchedOf (inst : Val → Val → Bool) (p a t : Val) (l : List Rule) (r : Rule) :
    r ∈ matchedOf inst p a t l ↔
      r ∈ l ∧ inst p r.model = true ∧
        (jsEq r.target (Val.strv "all") = true ∨ jsEq t r.target = true ∨
          inst t r.target = true) ∧
        (jsEq r.action (Val.strv "manage") = true ∨ jsEq a r.action = true) := by
  simp only [matchedOf, List.mem_filter, Bool.or_eq_true]
  tauto

/-- C1 (amended): provided every rule surviving the model, target, and action
filters has a condition evaluation that succeeds, `can` resolves `true` iff at
least one declared rule passes the configured type-membership check on the
performer, matches the target (`"all"` sentinel, strict equality, or
type-membership), matches the action (`"manage"` sentinel or strict equality),
and either has no condition or its condition applied to the performer, the
target, and the defaulted options resolves to `true`.  (The proviso is
necessary: without it a rejecting condition makes `can` reject, see the
counterexample.) -/
theorem can_true_iff_exists_rule (st : CanCan) (p a t o : Val)
    (h : ∀ r ∈ matchedRules st p a t, ∃ b, condEval r p t (defaultOpts o) = Except.ok b) :
    can st p a t o = Except.ok true ↔
      ∃ r ∈ st.abilities,
        st.instanceOf p r.model = true ∧
        (jsEq r.target (Val.strv "all") = true ∨ jsEq t r.target = true ∨
          st.instanceOf t r.target = true) ∧
        (jsEq r.action (Val.strv "manage") = true ∨ jsEq a r.action = true) ∧
        (r.condition = none ∨ ∃ f, r.condition = some f ∧
          f p t (defaultOpts o) = Except.ok true) := by
  have hPQ : (∃ r ∈ matchedOf st.instanceOf p a t st.abilities,
      okD (condEval r p t (defaultOpts o)) = true) ↔
      (∃ r ∈ st.abilities,
        st.instanceOf p r.model = true ∧
        (jsEq r.target (Val.strv "all") = true ∨ jsEq t r.target = true ∨
          st.instanceOf t r.target = true) ∧
        (jsEq r.action (Val.strv "manage") = true ∨ jsEq a r.action = true) ∧
        (r.condition = none ∨ ∃ f, r.condition = some f ∧
          f p t (defaultOpts o) = Except.ok true)) := by
    constructor
    · rintro ⟨r, hr, hok⟩
      obtain ⟨hm, h1, h2, h3⟩ := (mem_matchedOf _ _ _ _ _ _).mp hr
      exact ⟨r, hm, h1, h2, h3,
        (condEval_ok_true r p t _).mp ((okD_eq_true _).mp hok)⟩
    · rintro ⟨r, hm, h1, h2, h3, hcond⟩
      exact ⟨r, (mem_matchedOf _ _ _ _ _ _).mpr ⟨hm, h1, h2, h3⟩,
        (okD_eq_true _).mpr ((condEval_ok_true r p t _).mpr hcond)⟩
  rw [show can st p a t o = canList st.instanceOf p a t (defaultOpts o) st.abilities
      from rfl, canList_ok _ _ _ _ _ _ h]
  constructor
  · intro hok
    exact hPQ.mp (of_decide_eq_true (Except.ok.inj hok))
  · intro hq
    rw [decide_eq_true (hPQ.mpr hq)]

/-- Witness for the amended C1 at a concrete state: the single unconditional
rule makes the right-hand side hold, hence `can` resolves `true`. -/
theorem can_true_iff_exists_rule_witness :
    can stOne (Val.numv 1) (Val.strv "read") (Val.numv 2) Val.undef = Except.ok true := by
  have hm : matchedRules stOne (Val.numv 1) (Val.strv "read") (Val.numv 2) = [ruleRead] := rfl
  refine (can_true_iff_exists_rule stOne (Val.numv 1) (Val.strv "read") (Val.numv 2)
      Val.undef ?_).mpr ?_
  · intro r hr
    rw [hm] at hr
    rw [List.mem_singleton.mp hr]
    exact ⟨true, rfl⟩
  · exact ⟨ruleRead, List.mem_cons_self _ _, rfl, Or.inl rfl, Or.inr rfl, Or.inl rfl⟩

/-- Counterexample to C1 as stated: in the registry `stBoom` a rule with a
rejecting condition precedes an unconditional rule; the unconditional rule
satisfies every filter, so the claimed right-hand side holds, yet `can` does
not return `true` — it rejects with the condition's error. -/
theorem can_true_iff_exists_rule_counterexample :
    ¬ (can stBoom (Val.numv 1) (Val.strv "read") (Val.numv 2) Val.undef = Except.ok true ↔
        ∃ r ∈ stBoom.abilities,
          stBoom.instanceOf (Val.numv 1) r.model = true ∧
          (jsEq r.target (Val.strv "all") = true ∨ jsEq (Val.numv 2) r.target = true ∨
            stBoom.instanceOf (Val.numv 2) r.target = true) ∧
          (jsEq r.action (Val.strv "manage") = true ∨
            jsEq (Val.strv "read") r.action = true) ∧
          (r.condition = none ∨ ∃ f, r.condition = some f ∧
            f (Val.numv 1) (Val.numv 2) Val.undef = Except.ok true)) := by
  intro hiff
  have hrhs : ∃ r ∈ stBoom.abilities,
      stBoom.instanceOf (Val.numv 1) r.model = true ∧
      (jsEq r.target (Val.strv "all") = true ∨ jsEq (Val.numv 2) r.target = true ∨
        stBoom.instanceOf (Val.numv 2) r.target = true) ∧
      (jsEq r.action (Val.strv "manage") = true ∨
        jsEq (Val.strv "read") r.action = true) ∧
      (r.condition = none ∨ ∃ f, r.condition = some f ∧
        f (Val.numv 1) (Val.numv 2) Val.undef = Except.ok true) :=
    ⟨ruleRead, List.mem_cons_of_mem _ (List.mem_cons_self _ _),
      rfl, Or.inl rfl, Or.inr rfl, Or.inl rfl⟩
  have hcan : can stBoom (Val.numv 1) (Val.strv "read") (Val.numv 2) Val.undef =
      Except.error (Val.strv "boom") := rfl
  have := hiff.mpr hrhs
  rw [hcan] at this
  exact Except.noConfusion this

/-- C5: `cannot` is defined purely as the boolean complement of `can` on the
identical arguments — it maps a resolved boolean to its negation and passes a
rejection (an asynchronous condition failure) through unchanged, performing no
separate re-query. -/
theorem cannot_is_complement (st : CanCan) (p a t o : Val) :
    cannot st p a t o = (can st p a t o).map (fun b => !b)
    ∧ (∀ b, can st p a t o = Except.ok b → cannot st p a t o = Except.ok (!b))
    ∧ (∀ e, can st p a t o = Except.error e → cannot st p a t o = Except.error e) := by
  refine ⟨rfl, ?_, ?_⟩
  · intro b hb; simp [cannot, hb, Except.map]
  · intro e he; simp [cannot, he, Except.map]

/-- Witness for C5 at a concrete state: `can` resolves `true`, so `cannot`
resolves `false`. -/
theorem cannot_is_complement_witness :
    cannot stOne (Val.numv 1) (Val.strv "read") (Val.numv 2) Val.undef =
      Except.ok false :=
  (cannot_is_complement stOne (Val.numv 1) (Val.strv "read") (Val.numv 2)
    Val.undef).2.1 true rfl

/-- C6: when `can` would resolve a boolean, `authorize` resolves with no value
on `true` and throws exactly the value produced by the configured `createError`
factory, invoked with the arguments passed to `authorize`, on `false`; the
default factory yields the generic error with the fixed message
`'Authorization error'`. -/
theorem authorize_resolves_or_throws (st : CanCan) (p a t o : Val) (b : Bool)
    (h : can st p a t o = Except.ok b) :
    authorize st p a t o =
      (if b then Except.ok () else Except.error (st.createError p a t o))
    ∧ defaultCreateError p a t o =
        Val.objv 0 [("message", Val.strv "Authorization error")] none := by
  refine ⟨?_, rfl⟩
  have hc : cannot st p a t o = Except.ok (!b) := by simp [cannot, h, Except.map]
  cases b <;> simp [authorize, hc]

/-- Witness for C6 at a concrete state: the empty registry denies, so
`authorize` throws the configured factory's value. -/
theorem authorize_resolves_or_throws_witness :
    authorize stEmpty (Val.numv 1) (Val.strv "read") (Val.numv 2) Val.undef =
      Except.error (stEmpty.createError (Val.numv 1) (Val.strv "read") (Val.numv 2)
        Val.undef) := by
  have h := (authorize_resolves_or_throws stEmpty (Val.numv 1) (Val.strv "read")
    (Val.numv 2) Val.undef false rfl).1
  simpa using h

/-- C7: if some rule surviving the model, target, and action filters has a
condition evaluation that rejects, then `can` rejects with a surviving rule's
condition error — it is not coerced to `false` — and `cannot` and `authorize`
propagate the same rejection. -/
theorem condition_failure_propagates (st : CanCan) (p a t o : Val)
    (h : ∃ r ∈ matchedRules st p a t, ∃ e,
      condEval r p t (defaultOpts o) = Except.error e) :
    ∃ e, can st p a t o = Except.error e
      ∧ cannot st p a t o = Except.error e
      ∧ authorize st p a t o = Except.error e
      ∧ ∃ r ∈ matchedRules st p a t, condEval r p t (defaultOpts o) = Except.error e := by
  obtain ⟨e, hmap, hr⟩ :=
    mapAsync_error (fun r => condEval r p t (defaultOpts o)) (matchedRules st p a t) h
  have hcan : can st p a t o = Except.error e := by
    unfold can canList filterAsync
    rw [show matchedOf st.instanceOf p a t st.abilities = matchedRules st p a t from rfl,
      hmap]
    rfl
  have hcannot : cannot st p a t o = Except.error e := by
    simp [cannot, hcan, Except.map]
  refine ⟨e, hcan, hcannot, ?_, hr⟩
  simp [authorize, hcannot]

/-- Witness for C7 at a concrete state: the rejecting rule survives the
filters, so the query rejects. -/
theorem condition_failure_propagates_witness :
    ∃ e, can stBoom (Val.numv 1) (Val.strv "read") (Val.numv 2) Val.undef =
      Except.error e := by
  have hmem : ruleBoom ∈ matchedRules stBoom (Val.numv 1) (Val.strv "read") (Val.numv 2) := by
    rw [show matchedRules stBoom (Val.numv 1) (Val.strv "read") (Val.numv 2) =
      [ruleBoom, ruleRead] from rfl]
    exact List.mem_cons_self _ _
  obtain ⟨e, hcan, -, -, -⟩ := condition_failure_propagates stBoom (Val.numv 1)
    (Val.strv "read") (Val.numv 2) Val.undef ⟨ruleBoom, hmem, Val.strv "boom", rfl⟩
  exact ⟨e, hcan⟩

/-- C8: on queries whose condition evaluations all succeed (the evaluated
conditions are exactly those of the rules surviving the model, target, and
action filters), the result of `can` does not depend on the order in which
rules were declared: permuting the registry (keeping the same type-membership
predicate) leaves the resolved boolean unchanged. -/
theorem can_independent_of_declaration_order (st₁ st₂ : CanCan) (p a t o : Val)
    (hinst : st₁.instanceOf = st₂.instanceOf)
    (hperm : List.Perm st₁.abilities st₂.abilities)
    (hok : ∀ r ∈ matchedRules st₁ p a t,
      ∃ b, condEval r p t (defaultOpts o) = Except.ok b) :
    can st₁ p a t o = can st₂ p a t o := by
  have hok₁ : ∀ r ∈ matchedOf st₁.instanceOf p a t st₁.abilities,
      ∃ b, condEval r p t (defaultOpts o) = Except.ok b := hok
  have hok₂ : ∀ r ∈ matchedOf st₂.instanceOf p a t st₂.abilities,
      ∃ b, condEval r p t (defaultOpts o) = Except.ok b := by
    intro r hr
    rw [← hinst] at hr
    obtain ⟨hm, h1, h2, h3⟩ := (mem_matchedOf _ _ _ _ _ _).mp hr
    exact hok r ((mem_matchedOf _ _ _ _ _ _).mpr ⟨hperm.symm.subset hm, h1, h2, h3⟩)
  rw [show can st₁ p a t o = canList st₁.instanceOf p a t (defaultOpts o) st₁.abilities
      from rfl,
    show can st₂ p a t o = canList st₂.instanceOf p a t (defaultOpts o) st₂.abilities
      from rfl,
    canList_ok _ _ _ _ _ _ hok₁, canList_ok _ _ _ _ _ _ hok₂]
  rw [← hinst]
  refine congrArg Except.ok (decide_eq_decide.mpr ?_)
  constructor
  · rintro ⟨r, hr, hok'⟩
    obtain ⟨hm, h1, h2, h3⟩ := (mem_matchedOf _ _ _ _ _ _).mp hr
    exact ⟨r, (mem_matchedOf _ _ _ _ _ _).mpr ⟨hperm.subset hm, h1, h2, h3⟩, hok'⟩
  · rintro ⟨r, hr, hok'⟩
    obtain ⟨hm, h1, h2, h3⟩ := (mem_matchedOf _ _ _ _ _ _).mp hr
    exact ⟨r, (mem_matchedOf _ _ _ _ _ _).mpr ⟨hperm.symm.subset hm, h1, h2, h3⟩, hok'⟩

/-- Witness for C8 at a concrete pair of states holding the same two rules in
opposite orders; the non-matching write rule's condition always rejects, so
only the surviving read rule's condition evaluation needs to succeed. -/
theorem can_independent_of_declaration_order_witness :
    can stRB (Val.numv 1) (Val.strv "read") (Val.numv 2) Val.undef =
      can stBR (Val.numv 1) (Val.strv "read") (Val.numv 2) Val.undef := by
  refine can_independent_of_declaration_order stRB stBR (Val.numv 1) (Val.strv "read")
    (Val.numv 2) Val.undef rfl (List.Perm.swap ruleWriteBoom ruleRead []) ?_
  intro r hr
  rw [show matchedRules stRB (Val.numv 1) (Val.strv "read") (Val.numv 2) = [ruleRead]
    from rfl] at hr
  rw [List.mem_singleton.mp hr]
  exact ⟨true, rfl⟩

/-- C9: each condition call of a query receives `options || {}` — the query's
result equals running the pipeline with the defaulted options value, the
defaulting maps each falsy options value (`undefined`, `null`, `false`, `0`,
the empty string) to the empty object, and passes any truthy options value
through unchanged. -/
theorem options_defaulting (st : CanCan) (p a t : Val) :
    (∀ o, can st p a t o = canList st.instanceOf p a t (defaultOpts o) st.abilities)
    ∧ defaultOpts Val.undef = emptyObj
    ∧ defaultOpts Val.nullv = emptyObj
    ∧ defaultOpts (Val.boolv false) = emptyObj
    ∧ defaultOpts (Val.numv 0) = emptyObj
    ∧ defaultOpts (Val.strv "") = emptyObj
    ∧ (∀ o, truthy o = true → defaultOpts o = o) := by
  refine ⟨fun o => rfl, rfl, rfl, rfl, ?_, ?_, fun o ho => by simp [defaultOpts, ho]⟩
  · simp [defaultOpts, truthy, emptyObj]
  · simp [defaultOpts, truthy, emptyObj]

/-- Witness for C9 at concrete options values: `null` is replaced by the empty
object and a truthy number is passed through. -/
theorem options_defaulting_witness :
    defaultOpts Val.nullv = emptyObj ∧ defaultOpts (Val.numv 5) = Val.numv 5 :=
  ⟨(options_defaulting stEmpty Val.undef Val.undef Val.undef).2.2.1,
   (options_defaulting stEmpty Val.undef Val.undef Val.undef).2.2.2.2.2.2
     (Val.numv 5) rfl⟩

/-- C4: declaring an attribute-map condition is exactly declaring the function
condition that ignores the performer and the options and checks that every
declared key reads on the target (through its `get` accessor when it exposes
one, by direct property lookup otherwise) as a value strictly equal to the
declared one. -/
theorem attr_map_condition_equiv (st : CanCan) (m : Val) (acts tgts : Arg)
    (attrs : List (String × Val)) :
    allow st m acts tgts (CondArg.obj attrs) =
      allow st m acts tgts (CondArg.fn (specAttrCond attrs))
    ∧ (∀ p t o, getConditionFn attrs p t o =
        Except.ok (attrs.all (fun kv => jsEq (get t kv.1) kv.2)))
    ∧ (∀ p p' t o o', specAttrCond attrs p t o = specAttrCond attrs p' t o') := by
  have hfn : getConditionFn attrs = specAttrCond attrs := by
    funext p t o; rfl
  have hnorm : normalizeCond (CondArg.obj attrs) =
      normalizeCond (CondArg.fn (specAttrCond attrs)) := by
    simp [normalizeCond, hfn]
  refine ⟨?_, fun p t o => rfl, fun p p' t o o' => rfl⟩
  simp [allow, allowRules, hnorm]

lemma forall₂_filter {R : Rule → Rule → Prop} {P : Rule → Bool}
    (hP : ∀ a b, R a b → P a = P b) {l₁ l₂ : List Rule}
    (h : List.Forall₂ R l₁ l₂) :
    List.Forall₂ R (l₁.filter P) (l₂.filter P) := by
  induction h with
  | nil => exact List.Forall₂.nil
  | cons hab htl ih =>
    rename_i a b l₁' l₂'
    rw [List.filter_cons, List.filter_cons, hP a b hab]
    cases hPb : P b
    · simpa [hPb] using ih
    · simpa [hPb] using List.Forall₂.cons hab ih

lemma mapAsync_forall₂ {R : Rule → Rule → Prop} (f g : Rule → Except Val Bool)
    (hfg : ∀ a b, R a b → f a = g b) {l₁ l₂ : List Rule}
    (h : List.Forall₂ R l₁ l₂) :
    mapAsync l₁ f = mapAsync l₂ g := by
  induction h with
  | nil => rfl
  | cons hab htl ih =>
    rename_i a b l₁' l₂'
    simp [mapAsync, hfg a b hab, ih]

lemma canList_congr (inst : Val → Val → Bool) (p a t opts : Val)
    {l₁ l₂ : List Rule} (h : List.Forall₂ RuleEquiv l₁ l₂) :
    canList inst p a t opts l₁ = canList inst p a t opts l₂ := by
  have h1 := forall₂_filter (P := fun r => inst p r.model)
    (fun x y hxy => by simp [hxy.1]) h
  have h2 := forall₂_filter
    (P := fun r => jsEq r.target (Val.strv "all") || jsEq t r.target || inst t r.target)
    (fun x y hxy => by simp [hxy.2.2.1]) h1
  have h3 := forall₂_filter
    (P := fun r => jsEq r.action (Val.strv "manage") || jsEq a r.action)
    (fun x y hxy => by simp [hxy.2.1]) h2
  unfold canList filterAsync matchedOf
  rw [mapAsync_forall₂ (fun r => condEval r p t opts) (fun r => condEval r p t opts)
    (fun x y hxy => hxy.2.2.2 p t opts) h3]

lemma forall₂_refl_ruleEquiv (l : List Rule) : List.Forall₂ RuleEquiv l l :=
  List.forall₂_same.mpr (fun _ _ => ⟨rfl, rfl, rfl, fun _ _ _ => rfl⟩)

lemma forall₂_map_rules (T : List Val) (f₁ f₂ : Val → Rule)
    (h : ∀ t ∈ T, RuleEquiv (f₁ t) (f₂ t)) :
    List.Forall₂ RuleEquiv (T.map f₁) (T.map f₂) := by
  induction T with
  | nil => exact List.Forall₂.nil
  | cons t T ih =>
    exact List.Forall₂.cons (h t (List.mem_cons_self t T))
      (ih fun x hx => h x (List.mem_cons_of_mem t hx))

lemma forall₂_allowRules (m : Val) (acts tgts : Arg) (c₁ c₂ : CondArg)
    (h : ∀ a t : Val, RuleEquiv
      { model := m, action := a, target := t, condition := normalizeCond c₁ }
      { model := m, action := a, target := t, condition := normalizeCond c₂ }) :
    List.Forall₂ RuleEquiv (allowRules m acts tgts c₁) (allowRules m acts tgts c₂) := by
  unfold allowRules
  induction arrify acts with
  | nil => exact List.Forall₂.nil
  | cons a A ih =>
    rw [List.flatMap_cons, List.flatMap_cons]
    exact List.rel_append (forall₂_map_rules _ _ _ (fun t _ => h a t)) ih

/-- C10: declaring the empty attribute map as a condition is accepted, the
desugared predicate is constantly `true`, and the resulting registry answers
every query exactly as the registry declared with no condition. -/
theorem empty_attr_map_like_no_condition (st : CanCan) (m : Val) (acts tgts : Arg) :
    ((allow st m acts tgts (CondArg.obj [])).1 = none)
    ∧ (∀ p t o, getConditionFn [] p t o = Except.ok true)
    ∧ (∀ p a t o,
        can (allow st m acts tgts (CondArg.obj [])).2 p a t o =
          can (allow st m acts tgts CondArg.undef).2 p a t o) := by
  refine ⟨rfl, fun p t o => rfl, ?_⟩
  intro p a t o
  have h2 : List.Forall₂ RuleEquiv
      (st.abilities ++ allowRules m acts tgts (CondArg.obj []))
      (st.abilities ++ allowRules m acts tgts CondArg.undef) := by
    refine List.rel_append (forall₂_refl_ruleEquiv st.abilities) ?_
    refine forall₂_allowRules m acts tgts _ _ ?_
    intro a' t'
    exact ⟨rfl, rfl, rfl, fun pp tt oo => rfl⟩
  exact canList_congr st.instanceOf p a t (defaultOpts o) h2
